import Mathlib

/-
Verification of the contact-manager record store (base.py).

The program keeps an ordered list of contacts (`self.contacts`), each tagged
with a slash-delimited `folder_path`.  This file embeds the data model and the
operations the claims are about:
  - `delete_subtree`      : the folder-deletion arm of `delete_selected` (base.py:408-412)
  - `delete_selected`     : the contact-deletion arm of `delete_selected` (base.py:378-391)
  - `reorderWithinFolder` : `_reorder_within_folder` (base.py:567-579)
  - `move_contact_to_folder_at_position` : base.py:581-591
  - `drop_on_folder`      : the drop-onto-folder branch of `on_end_drag` (base.py:494-511)
  - `build_folder_tree`   : base.py:239-263 (registry of known folder paths)
  - `add_folder`          : base.py:303-328
  - `load_contacts` / `save_contacts` : base.py:120-159, modelled at the level of
    the tabular file contents (a list of rows of fields), the interface between
    the program and the csv library.

Python string operations are modelled structurally over the character list of
a `String` (the built-in `String.trim`/`String.startsWith` use well-founded
recursion and do not reduce in the kernel).
-/

structure Contact where
  folder_path : String
  name : String
  ammyadmin_id : String
  anydesk_id : String
  rustdesk_id : String
  notes : String
deriving DecidableEq

/-- Short constructor for test contacts: folder and name, all ids empty. -/
def mkC (folder nm : String) : Contact :=
  ⟨folder, nm, "", "", "", ""⟩

/-- Model of python `str.strip()`: drop whitespace from both ends. -/
def pyStrip (s : String) : String :=
  String.mk (((s.data.dropWhile Char.isWhitespace).reverse.dropWhile Char.isWhitespace).reverse)

/-- `_norm_path` (base.py:14-16): `p.strip()`. -/
def norm_path (p : String) : String := pyStrip p

/-- Model of python `s.startswith(pre)`: `pre` is a leading substring of `s`. -/
def pyStarts (pre s : String) : Bool := pre.data.isPrefixOf s.data

/-- Folder-deletion arm of `delete_selected` (base.py:410-412): keeps exactly the
contacts `c` with `not c.folder_path.startswith(folder_path)`. -/
def delete_subtree (cs : List Contact) (folder_path : String) : List Contact :=
  cs.filter (fun c => !(pyStarts folder_path c.folder_path))

/-- Modelled from the spec: `delete_subtree(folder_path)` removes every record
whose folder_path equals the argument or starts with `argument + "/"` (a whole
path segment).  This is the spec's segment-boundary variant, kept side by side
with the source's raw `startswith` filter for comparison. -/
def delete_subtree_spec (cs : List Contact) (p : String) : List Contact :=
  cs.filter (fun c => !(c.folder_path == p || pyStarts (p ++ "/") c.folder_path))

/-- Model of python `list.insert(n, v)`: insert before position `n`, clamping
to the end when `n` exceeds the length (python semantics). -/
def insAt (n : Nat) (v : Contact) : List Contact → List Contact
  | [] => [v]
  | c :: l => match n with
    | 0 => v :: c :: l
    | m + 1 => c :: insAt m v l

/-- Model of python `list.index(k)` on a list of positions (first occurrence;
the callers below only invoke it when `k` is present). -/
def posOf (k : Nat) : List Nat → Nat
  | [] => 0
  | m :: rest => if m = k then 0 else posOf k rest + 1

/-- Positions (counted from `n`) of the contacts whose folder_path is `f`:
the python comprehension `[i for i, c in enumerate(contacts) if c.folder_path == folder]`
with `enumerate` starting at `n`. -/
def idxsFrom (f : String) : Nat → List Contact → List Nat
  | _, [] => []
  | n, c :: cs => if c.folder_path == f then n :: idxsFrom f (n + 1) cs else idxsFrom f (n + 1) cs

/-- Global indices of the contacts in folder `f` (base.py:570). -/
def folderIdxs (cs : List Contact) (f : String) : List Nat := idxsFrom f 0 cs

/-- The write-back loop of `_reorder_within_folder` (base.py:578-579):
`for local_i, global_i in enumerate(folder_indices): contacts[global_i] = folder_contacts[local_i]`,
presented as the fold of `List.set` over the zipped (index, value) pairs. -/
def writeBack : List Contact → List (Nat × Contact) → List Contact
  | cs, [] => cs
  | cs, (i, v) :: rest => writeBack (cs.set i v) rest

/-- `_reorder_within_folder` (base.py:567-579).  The two `none` fallbacks model
positions where python would raise (never reached for the valid indices the
claims quantify over). -/
def reorderWithinFolder (cs : List Contact) (source_idx target_idx : Nat) : List Contact :=
  match cs[source_idx]? with
  | none => cs
  | some src =>
    let folder := src.folder_path
    let folder_indices := folderIdxs cs folder
    let src_pos := posOf source_idx folder_indices
    let tgt_pos := posOf target_idx folder_indices
    let folder_contacts := folder_indices.filterMap (fun k => cs[k]?)
    match folder_contacts[src_pos]? with
    | none => cs
    | some contact_obj =>
      writeBack cs (folder_indices.zip (insAt tgt_pos contact_obj (folder_contacts.eraseIdx src_pos)))

/-- `_move_contact_to_folder_at_position` (base.py:581-591): pop the source,
retag its folder, and insert at `insert_pos + 1` where `insert_pos` is the
target index minus one when the source sat before it. -/
def move_contact_to_folder_at_position
    (cs : List Contact) (source_idx : Nat) (target_folder : String) (target_idx : Nat) :
    List Contact :=
  match cs[source_idx]? with
  | none => cs
  | some contact =>
    insAt ((if source_idx < target_idx then target_idx - 1 else target_idx) + 1)
      { contact with folder_path := target_folder } (cs.eraseIdx source_idx)

/-- Drop-onto-folder branch of `on_end_drag` (base.py:503-511): retag the
dragged contact in place when the target folder differs, else do nothing. -/
def drop_on_folder (cs : List Contact) (source_idx : Nat) (new_folder : String) : List Contact :=
  match cs[source_idx]? with
  | none => cs
  | some c =>
    if c.folder_path = new_folder then cs
    else cs.set source_idx { c with folder_path := new_folder }

/-- The deletion loop of `delete_selected` (base.py:386-388):
`for i in indices: del contacts[i]`, where `del` on an out-of-range position
raises IndexError (modelled as `Except.error`). -/
def delLoop : List Contact → List Nat → Except String (List Contact)
  | acc, [] => Except.ok acc
  | acc, i :: rest =>
    if i < acc.length then delLoop (acc.eraseIdx i) rest else Except.error "IndexError"

/-- `sorted(indices, reverse=True)` on distinct positions. -/
def sortDesc (l : List Nat) : List Nat := List.insertionSort (fun a b => b ≤ a) l

/-- Contact-deletion arm of `delete_selected` (base.py:386-388): delete at the
given positions, largest first. -/
def delete_selected (cs : List Contact) (indices : List Nat) : Except String (List Contact) :=
  delLoop cs (sortDesc indices)

/-- Reference description of multi-index deletion: keep the entries whose
position (counted from `n`) is not in `s`. -/
def dropIdxs (s : List Nat) : Nat → List Contact → List Contact
  | _, [] => []
  | n, c :: cs => if n ∈ s then dropIdxs s (n + 1) cs else c :: dropIdxs s (n + 1) cs

/-- Model of python `s.strip(t)` for a single character `t`. -/
def pyStripChar (t : Char) (s : String) : String :=
  String.mk (((s.data.dropWhile (· == t)).reverse.dropWhile (· == t)).reverse)

/-- Model of python `s.split("/")` (on the character list of `s`). -/
def splitSlash : List Char → List String
  | [] => [""]
  | c :: cs => match splitSlash cs with
    | [] => [""]
    | seg :: rest => if c = '/' then "" :: seg :: rest else String.mk (c :: seg.data) :: rest

/-- The cumulative `cur` values of the part-walking loop of `build_folder_tree`
(base.py:254-263): `cur = f"{cur}/{part}" if cur else part` for each part. -/
def cumPaths : String → List String → List String
  | _, [] => []
  | cur, part :: rest =>
    let cur2 := if cur = "" then part else cur ++ "/" ++ part
    cur2 :: cumPaths cur2 rest

/-- All intermediate paths registered while walking one contact path:
`parts = path.strip("/").split("/")` then the cumulative joins. -/
def pathChain (p : String) : List String :=
  cumPaths "" (splitSlash (pyStripChar '/' p).data)

/-- Registration of one path into the registry (base.py:250-263): skip the
empty path, then append each yet-unknown cumulative path. -/
def addPath (reg : List String) (path : String) : List String :=
  if path = "" then reg
  else (pathChain path).foldl (fun r cur => if cur ∈ r then r else r ++ [cur]) reg

/-- Lexicographic (code-point) comparison of character lists: python's string
ordering, written structurally so it evaluates. -/
def charsLe : List Char → List Char → Bool
  | [], _ => true
  | _ :: _, [] => false
  | a :: as, b :: bs => if a = b then charsLe as bs else decide (a < b)

/-- `sorted(paths)` where `paths = {c.folder_path for c in contacts} | {""}`
(base.py:245-249): the deduplicated path set in python's ascending string order. -/
def sortedPaths (cs : List Contact) : List String :=
  List.insertionSort (fun a b => charsLe a.data b.data = true)
    (("" :: cs.map (fun c => c.folder_path)).dedup)

/-- `build_folder_tree` (base.py:239-263), as the registry of known folder
paths (`folder_path_to_id`'s key set, in insertion order).  Its only input is
the current contact list: the registry is reset to the root and re-derived
from the contacts' folder paths. -/
def build_folder_tree (cs : List Contact) : List String :=
  (sortedPaths cs).foldl addPath [""]

inductive FolderError where
  | invalidName : FolderError
  | duplicateFolder : FolderError
deriving DecidableEq

/-- `add_folder` (base.py:303-328) acting on the path registry.  An empty
dialog answer returns silently (modelled as `ok` with the registry unchanged);
a stripped name containing `/` warns InvalidName; an already-known combined
path warns DuplicateFolder; otherwise the new path is appended. -/
def add_folder (reg : List String) (parent_path name0 : String) :
    Except FolderError (List String) :=
  if name0 = "" then Except.ok reg
  else
    let nm := pyStrip name0
    if nm.data.any (fun c => c == '/') then Except.error FolderError.invalidName
    else
      let new_path := if parent_path = "" then nm else parent_path ++ "/" ++ nm
      if new_path ∈ reg then Except.error FolderError.duplicateFolder
      else Except.ok (reg ++ [new_path])

/-- A contact as constructed by `load_contacts`: python may leave `None` in any
field read through the row dict, except `folder_path` which has been through
`_norm_path` (so loading crashed unless it was a real string). -/
structure LoadedContact where
  folder_path : String
  name : Option String
  ammyadmin_id : Option String
  anydesk_id : Option String
  rustdesk_id : Option String
  notes : Option String
deriving DecidableEq

/-- Index of the last occurrence of `k` in a header: python's `dict(zip(header, row))`
lets the last duplicate win, and `csv.DictReader` fills the keys beyond the row
length with `None`. -/
def lastIdxOf (k : String) : List String → Option Nat
  | [] => none
  | h :: t => match lastIdxOf k t with
    | some i => some (i + 1)
    | none => if h == k then some 0 else none

/-- Python `row[k]` on a `csv.DictReader` row: `none` is a KeyError (`k` not a
header field), `some none` is the value `None` (row shorter than the header),
`some (some v)` is the field value. -/
def pyDictVal (header row : List String) (k : String) : Option (Option String) :=
  match lastIdxOf k header with
  | none => none
  | some i => some row[i]?

/-- Python `row.get(k, "")`: the default only applies when the key is absent;
a key paired with `None` yields `None`. -/
def pyGet (header row : List String) (k : String) : Option String :=
  match pyDictVal header row k with
  | none => some ""
  | some v => v

/-- One iteration of the loading loop (base.py:131-141).  `row["folder"]`
missing from the header is a KeyError; a `None` folder value crashes in
`_norm_path`; `row["name"]` missing from the header is a KeyError; every other
field goes through `row.get(..., "")` and never fails. -/
def loadRow (header row : List String) : Except String LoadedContact :=
  match pyDictVal header row "folder" with
  | none => Except.error "KeyError: folder"
  | some none => Except.error "AttributeError: strip of None"
  | some (some fv) =>
    match pyDictVal header row "name" with
    | none => Except.error "KeyError: name"
    | some nm =>
      Except.ok
        { folder_path := norm_path fv
          name := nm
          ammyadmin_id := pyGet header row "ammyadmin_id"
          anydesk_id := pyGet header row "anydesk_id"
          rustdesk_id := pyGet header row "rustdesk_id"
          notes := pyGet header row "notes" }

/-- The loading loop over the data rows: stop at the first failing row. -/
def loadRows (header : List String) : List (List String) → Except String (List LoadedContact)
  | [] => Except.ok []
  | row :: rest =>
    match loadRow header row with
    | Except.error e => Except.error e
    | Except.ok c =>
      match loadRows header rest with
      | Except.error e => Except.error e
      | Except.ok cs => Except.ok (c :: cs)

/-- `load_contacts` (base.py:120-141) on the tabular file contents.  The first
row is the header consumed by `csv.DictReader`; blank rows are skipped by the
reader; an empty file yields no contacts. -/
def load_contacts (table : List (List String)) : Except String (List LoadedContact) :=
  match table with
  | [] => Except.ok []
  | header :: rows => loadRows header (rows.filter (fun r => !r.isEmpty))

def headerRow : List String :=
  ["folder", "name", "ammyadmin_id", "anydesk_id", "rustdesk_id", "notes"]

/-- The row written for one contact (base.py:149-159). -/
def rowOf (c : Contact) : List String :=
  [c.folder_path, c.name, c.ammyadmin_id, c.anydesk_id, c.rustdesk_id, c.notes]

/-- `save_contacts` (base.py:143-159) as the tabular file contents it writes:
the fixed header then one row per contact, in store order. -/
def save_contacts (cs : List Contact) : List (List String) :=
  headerRow :: cs.map rowOf

/-- What a saved contact reads back as: the folder field re-normalized, every
other field intact (and present). -/
def loadedOf (c : Contact) : LoadedContact :=
  { folder_path := norm_path c.folder_path
    name := some c.name
    ammyadmin_id := some c.ammyadmin_id
    anydesk_id := some c.anydesk_id
    rustdesk_id := some c.rustdesk_id
    notes := some c.notes }

/-- A loaded contact with all fields present. -/
def fullLoaded (c : Contact) : LoadedContact :=
  { folder_path := c.folder_path
    name := some c.name
    ammyadmin_id := some c.ammyadmin_id
    anydesk_id := some c.anydesk_id
    rustdesk_id := some c.rustdesk_id
    notes := some c.notes }

theorem insAt_length (n : Nat) (v : Contact) (l : List Contact) :
    (insAt n v l).length = l.length + 1 := by
  induction l generalizing n with
  | nil => simp [insAt]
  | cons c t ih =>
    cases n with
    | zero => simp [insAt]
    | succ m => simp [insAt, ih]

theorem insAt_getElem?_lt {n k : Nat} (v : Contact) {l : List Contact}
    (hk : k < n) (hn : n ≤ l.length) : (insAt n v l)[k]? = l[k]? := by
  induction l generalizing n k with
  | nil => simp at hn; omega
  | cons c t ih =>
    cases n with
    | zero => omega
    | succ m =>
      cases k with
      | zero => simp [insAt]
      | succ k2 =>
        simp only [insAt, List.getElem?_cons_succ]
        exact ih (by omega) (by simp at hn; omega)

theorem insAt_getElem?_self {n : Nat} (v : Contact) {l : List Contact}
    (hn : n ≤ l.length) : (insAt n v l)[n]? = some v := by
  induction l generalizing n with
  | nil =>
    have h0 : n = 0 := by simp at hn; omega
    subst h0; simp [insAt]
  | cons c t ih =>
    cases n with
    | zero => simp [insAt]
    | succ m =>
      simp only [insAt, List.getElem?_cons_succ]
      exact ih (by simp at hn; omega)

theorem mem_insAt {x v : Contact} {n : Nat} {l : List Contact} :
    x ∈ insAt n v l ↔ x = v ∨ x ∈ l := by
  induction l generalizing n with
  | nil => simp [insAt]
  | cons c t ih =>
    cases n with
    | zero => simp [insAt]
    | succ m =>
      simp only [insAt, List.mem_cons, ih]
      tauto

theorem eraseIdx_getElem?_lt (l : List Contact) {i k : Nat} (h : k < i) :
    (l.eraseIdx i)[k]? = l[k]? := by
  induction l generalizing i k with
  | nil => simp
  | cons c t ih =>
    cases i with
    | zero => omega
    | succ m =>
      cases k with
      | zero => simp
      | succ k2 =>
        simp only [List.eraseIdx_cons_succ, List.getElem?_cons_succ]
        exact ih (by omega)

theorem eraseIdx_getElem?_ge (l : List Contact) {i k : Nat} (h : i ≤ k) :
    (l.eraseIdx i)[k]? = l[k + 1]? := by
  induction l generalizing i k with
  | nil => simp
  | cons c t ih =>
    cases i with
    | zero => simp
    | succ m =>
      cases k with
      | zero => omega
      | succ k2 =>
        simp only [List.eraseIdx_cons_succ, List.getElem?_cons_succ]
        exact ih (by omega)

theorem mem_of_mem_erase_at {x : Contact} {l : List Contact} {i : Nat}
    (h : x ∈ l.eraseIdx i) : x ∈ l := by
  induction l generalizing i with
  | nil => simp at h
  | cons c t ih =>
    cases i with
    | zero => exact List.mem_cons_of_mem c h
    | succ m =>
      rcases List.mem_cons.1 h with h1 | h2
      · exact h1 ▸ List.mem_cons_self c t
      · exact List.mem_cons_of_mem c (ih h2)

theorem posOf_lt_length {k : Nat} {l : List Nat} (h : k ∈ l) :
    posOf k l < l.length := by
  induction l with
  | nil => simp at h
  | cons m rest ih =>
    by_cases hm : m = k
    · simp [posOf, hm]
    · have : k ∈ rest := by
        rcases List.mem_cons.1 h with h1 | h2
        · exact absurd h1.symm hm
        · exact h2
      simp only [posOf, if_neg hm, List.length_cons]
      exact Nat.succ_lt_succ (ih this)

theorem getElem?_posOf {k : Nat} {l : List Nat} (h : k ∈ l) :
    l[posOf k l]? = some k := by
  induction l with
  | nil => simp at h
  | cons m rest ih =>
    by_cases hm : m = k
    · simp [posOf, hm]
    · have : k ∈ rest := by
        rcases List.mem_cons.1 h with h1 | h2
        · exact absurd h1.symm hm
        · exact h2
      simp only [posOf, if_neg hm, List.getElem?_cons_succ]
      exact ih this

/-- C1: the source's `delete_subtree` filters with a raw `startswith` on the
whole path string, so deleting folder "Team" also removes a record whose
folder_path is "Team2"; the spec's segment-boundary filter keeps it.  The code
is evaluated at the failing input next to the spec-modelled variant. -/
theorem delete_subtree_team2_divergence :
    delete_subtree [mkC "Team2" "Bob"] "Team" = []
    ∧ delete_subtree_spec [mkC "Team2" "Bob"] "Team" = [mkC "Team2" "Bob"] :=
  ⟨rfl, rfl⟩

/-- C10: dropping a record onto a folder node with a different path reparents
it in place (same global index, only the folder_path field rewritten, every
other slot untouched), and dropping onto its current folder changes nothing. -/
theorem drop_on_folder_in_place
    (cs : List Contact) (i : Nat) (f : String) (hi : i < cs.length) :
    ((cs[i]).folder_path ≠ f →
      (drop_on_folder cs i f)[i]? = some { cs[i] with folder_path := f }
      ∧ (∀ k, k ≠ i → (drop_on_folder cs i f)[k]? = cs[k]?)
      ∧ (drop_on_folder cs i f).length = cs.length)
    ∧ ((cs[i]).folder_path = f → drop_on_folder cs i f = cs) := by
  have hsome : cs[i]? = some cs[i] := List.getElem?_eq_getElem hi
  constructor
  · intro hne
    unfold drop_on_folder
    split
    · next heq => rw [hsome] at heq; cases heq
    · next c heq =>
      rw [hsome] at heq
      obtain rfl : cs[i] = c := Option.some.inj heq
      rw [if_neg hne]
      refine ⟨List.getElem?_set_self hi, fun k hk => List.getElem?_set_ne (fun h => hk h.symm), ?_⟩
      simp
  · intro hEq
    unfold drop_on_folder
    split
    · rfl
    · next c heq =>
      rw [hsome] at heq
      obtain rfl : cs[i] = c := Option.some.inj heq
      rw [if_pos hEq]

/-- C10 witness: a concrete reparenting drop and a concrete same-folder drop. -/
theorem drop_on_folder_in_place_witness :
    (drop_on_folder [mkC "A" "a", mkC "B" "b"] 0 "B")[0]? = some (mkC "B" "a")
    ∧ drop_on_folder [mkC "A" "a", mkC "B" "b"] 1 "B" = [mkC "A" "a", mkC "B" "b"] := by
  have h1 := (drop_on_folder_in_place [mkC "A" "a", mkC "B" "b"] 0 "B" (by decide)).1 (by decide)
  have h2 := (drop_on_folder_in_place [mkC "A" "a", mkC "B" "b"] 1 "B" (by decide)).2 rfl
  exact ⟨h1.1, h2⟩

/-- C2: `move_to_folder_after(i, folder, j)` pops index `i`, retags it, and
reinserts it so that its final global index is one greater than the new index
of the record originally at `j`, that index being `j - 1` when `i < j` and `j`
otherwise.  The record originally at `j` is verified to sit at that index. -/
theorem move_to_folder_after_index
    (cs : List Contact) (i j : Nat) (f : String)
    (hi : i < cs.length) (hj : j < cs.length)
    (hdiff : (cs[i]).folder_path ≠ (cs[j]).folder_path) :
    (move_contact_to_folder_at_position cs i f j)[(if i < j then j - 1 else j) + 1]?
      = some { cs[i] with folder_path := f }
    ∧ (move_contact_to_folder_at_position cs i f j)[if i < j then j - 1 else j]? = some cs[j]
    ∧ (move_contact_to_folder_at_position cs i f j).length = cs.length := by
  have hij : i ≠ j := by
    intro h; subst h; exact hdiff rfl
  have hsome : cs[i]? = some cs[i] := List.getElem?_eq_getElem hi
  have hjsome : cs[j]? = some cs[j] := List.getElem?_eq_getElem hj
  have herase : (cs.eraseIdx i).length = cs.length - 1 := by
    rw [List.length_eraseIdx]; simp [hi]
  unfold move_contact_to_folder_at_position
  split
  · next heq => rw [hsome] at heq; cases heq
  · next contact heq =>
    rw [hsome] at heq
    obtain rfl : cs[i] = contact := Option.some.inj heq
    by_cases hlt : i < j
    · have hj1 : 1 ≤ j := by omega
      rw [if_pos hlt]
      have hins : j - 1 + 1 = j := by omega
      rw [hins]
      have hle : j ≤ (cs.eraseIdx i).length := by omega
      refine ⟨insAt_getElem?_self _ hle, ?_, ?_⟩
      · rw [insAt_getElem?_lt _ (by omega) hle, eraseIdx_getElem?_ge _ (by omega), hins, hjsome]
      · rw [insAt_length, herase]; omega
    · rw [if_neg hlt]
      have hji : j < i := by omega
      have hle : j + 1 ≤ (cs.eraseIdx i).length := by omega
      refine ⟨insAt_getElem?_self _ hle, ?_, ?_⟩
      · rw [insAt_getElem?_lt _ (by omega) hle, eraseIdx_getElem?_lt _ hji, hjsome]
      · rw [insAt_length, herase]; omega

/-- C2 witness: moving a root record after the second record of folder "B". -/
theorem move_to_folder_after_index_witness :
    (move_contact_to_folder_at_position [mkC "A" "a", mkC "B" "b", mkC "B" "c"] 0 "B" 2)[2]?
      = some (mkC "B" "a")
    ∧ (move_contact_to_folder_at_position [mkC "A" "a", mkC "B" "b", mkC "B" "c"] 0 "B" 2)[1]?
      = some (mkC "B" "c") := by
  have h := move_to_folder_after_index [mkC "A" "a", mkC "B" "b", mkC "B" "c"] 0 2 "B"
    (by decide) (by decide) (by decide)
  exact ⟨h.1, h.2.1⟩

theorem dropIdxs_of_all_lt {s : List Nat} {n : Nat} (cs : List Contact)
    (h : ∀ x ∈ s, x < n) : dropIdxs s n cs = cs := by
  induction cs generalizing n with
  | nil => rfl
  | cons c t ih =>
    have hn : n ∉ s := fun hmem => absurd (h n hmem) (by omega)
    simp only [dropIdxs, if_neg hn]
    rw [ih (fun x hx => by have := h x hx; omega)]

theorem dropIdxs_congr {s t : List Nat} (hst : ∀ x, x ∈ s ↔ x ∈ t) (n : Nat)
    (cs : List Contact) : dropIdxs s n cs = dropIdxs t n cs := by
  induction cs generalizing n with
  | nil => rfl
  | cons c u ih =>
    by_cases hn : n ∈ s
    · simp only [dropIdxs, if_pos hn, if_pos ((hst n).1 hn), ih]
    · simp only [dropIdxs, if_neg hn, if_neg (fun h => hn ((hst n).2 h)), ih]

theorem dropIdxs_eraseIdx (cs : List Contact) (m n : Nat) (rest : List Nat)
    (hm : m < cs.length) (hrest : ∀ r ∈ rest, r < n + m) :
    dropIdxs rest n (cs.eraseIdx m) = dropIdxs ((n + m) :: rest) n cs := by
  induction cs generalizing m n with
  | nil => simp at hm
  | cons c t ih =>
    cases m with
    | zero =>
      have h1 : ∀ x ∈ rest, x < n := by simpa using hrest
      have h2 : n ∈ (n + 0) :: rest := by simp
      simp only [List.eraseIdx_cons_zero, dropIdxs, if_pos h2]
      rw [dropIdxs_of_all_lt t h1, dropIdxs_of_all_lt t]
      intro x hx
      rcases List.mem_cons.1 hx with h | h
      · omega
      · have := h1 x h; omega
    | succ m2 =>
      have hmem : n ∈ ((n + (m2 + 1)) :: rest) ↔ n ∈ rest := by
        simp only [List.mem_cons]
        constructor
        · rintro (h | h)
          · omega
          · exact h
        · exact fun h => Or.inr h
      have ihs := ih m2 (n + 1) (by simpa using hm) (fun r hr => by have := hrest r hr; omega)
      by_cases hn : n ∈ rest
      · simp only [List.eraseIdx_cons_succ, dropIdxs, if_pos hn, if_pos (hmem.2 hn)]
        rw [ihs]
        have harith : n + 1 + m2 = n + (m2 + 1) := by omega
        rw [harith]
      · simp only [List.eraseIdx_cons_succ, dropIdxs, if_neg hn, if_neg (fun h => hn (hmem.1 h))]
        rw [ihs]
        have harith : n + 1 + m2 = n + (m2 + 1) := by omega
        rw [harith]

theorem delLoop_ok (s : List Nat) (cs : List Contact)
    (hdesc : List.Pairwise (fun a b => a > b) s) (hvalid : ∀ i ∈ s, i < cs.length) :
    delLoop cs s = Except.ok (dropIdxs s 0 cs) := by
  induction s generalizing cs with
  | nil => rw [dropIdxs_of_all_lt cs (by simp)]; rfl
  | cons m rest ih =>
    have hm : m < cs.length := hvalid m (List.mem_cons_self m rest)
    have hrest_lt : ∀ r ∈ rest, r < m := fun r hr => (List.pairwise_cons.1 hdesc).1 r hr
    simp only [delLoop, if_pos hm]
    rw [ih (cs.eraseIdx m) (List.pairwise_cons.1 hdesc).2
      (fun r hr => by
        have h1 := hrest_lt r hr
        have h2 : (cs.eraseIdx m).length = cs.length - 1 := by
          rw [List.length_eraseIdx]; simp [hm]
        omega)]
    rw [dropIdxs_eraseIdx cs m 0 rest hm (fun r hr => by have := hrest_lt r hr; omega)]
    simp

theorem mem_sortDesc {l : List Nat} {x : Nat} : x ∈ sortDesc l ↔ x ∈ l :=
  (List.perm_insertionSort (fun a b => b ≤ a) l).mem_iff

theorem sortDesc_strict {l : List Nat} (h : l.Nodup) :
    List.Pairwise (fun a b => a > b) (sortDesc l) := by
  have hs : List.Pairwise (fun a b : Nat => b ≤ a) (sortDesc l) :=
    List.sorted_insertionSort (fun a b => b ≤ a) l
  have hn : (sortDesc l).Nodup :=
    (List.perm_insertionSort (fun a b => b ≤ a) l).symm.nodup h
  exact (hs.and hn).imp (fun hab => Nat.lt_of_le_of_ne hab.1 (Ne.symm hab.2))

/-- C7 counterexample: `del contacts[i]` raises IndexError on an out-of-range
position instead of silently ignoring it (claimed: the call fails silently and
leaves valid deletions applied without error). -/
theorem delete_selected_invalid_raises :
    delete_selected [mkC "A" "x"] [5] = Except.error "IndexError" := rfl

/-- C7 amended: when all positions are valid (and distinct, as the selection
set is), `delete_selected` removes exactly the records at those positions;
when any position is out of range the call raises IndexError — and since the
positions are processed largest first, it raises before removing anything. -/
theorem delete_selected_cases :
    (∀ (cs : List Contact) (indices : List Nat), indices.Nodup →
        (∀ i ∈ indices, i < cs.length) →
        delete_selected cs indices = Except.ok (dropIdxs indices 0 cs))
    ∧ (∀ (cs : List Contact) (indices : List Nat),
        (∃ i ∈ indices, cs.length ≤ i) →
        delete_selected cs indices = Except.error "IndexError") := by
  constructor
  · intro cs indices hnd hvalid
    unfold delete_selected
    rw [delLoop_ok (sortDesc indices) cs (sortDesc_strict hnd)
      (fun i hi => hvalid i (mem_sortDesc.1 hi))]
    rw [dropIdxs_congr (fun x => mem_sortDesc) 0 cs]
  · intro cs indices hbad
    obtain ⟨b, hbmem, hblen⟩ := hbad
    unfold delete_selected
    rcases hs : sortDesc indices with _ | ⟨h, t⟩
    · have : b ∈ sortDesc indices := mem_sortDesc.2 hbmem
      rw [hs] at this
      simp at this
    · have hsorted : List.Pairwise (fun a b : Nat => b ≤ a) (sortDesc indices) :=
        List.sorted_insertionSort (fun a b => b ≤ a) indices
      rw [hs] at hsorted
      have hbs : b ∈ h :: t := by
        have : b ∈ sortDesc indices := mem_sortDesc.2 hbmem
        rwa [hs] at this
      have hhb : b ≤ h := by
        rcases List.mem_cons.1 hbs with h1 | h2
        · omega
        · exact (List.pairwise_cons.1 hsorted).1 b h2
      have hnlt : ¬ h < cs.length := by omega
      simp only [delLoop, if_neg hnlt]

/-- C7 witness: a valid two-position deletion removes exactly those records,
and an out-of-range position raises. -/
theorem delete_selected_cases_witness :
    delete_selected [mkC "A" "x", mkC "A" "y", mkC "B" "z"] [0, 2] = Except.ok [mkC "A" "y"]
    ∧ delete_selected [mkC "A" "x"] [5] = Except.error "IndexError" := by
  constructor
  · have h := delete_selected_cases.1 [mkC "A" "x", mkC "A" "y", mkC "B" "z"] [0, 2]
      (by decide) (by decide)
    rw [h]; rfl
  · exact delete_selected_cases.2 [mkC "A" "x"] [5] ⟨5, by decide, by decide⟩

/-- C8 counterexample: a name consisting of whitespace is not rejected as
InvalidName; it trims to the empty string, the combined path at the root is ""
(the registered root itself), and the call fails with DuplicateFolder. -/
theorem add_folder_whitespace_name_not_invalid :
    add_folder [""] "" " " = Except.error FolderError.duplicateFolder := rfl

/-- C8 amended: an empty dialog answer returns silently with the registry
unchanged; a trimmed name containing "/" fails with InvalidName; otherwise the
combined path (parent + "/" + trimmed name, or the trimmed name at the root) is
checked — a known path fails with DuplicateFolder (this is where a
whitespace-only name lands at the root), an unknown one is registered, and
exactly it is added. -/
theorem add_folder_cases (reg : List String) (parent name0 : String) :
    (name0 = "" → add_folder reg parent name0 = Except.ok reg)
    ∧ (name0 ≠ "" → (pyStrip name0).data.any (fun c => c == '/') = true →
        add_folder reg parent name0 = Except.error FolderError.invalidName)
    ∧ (name0 ≠ "" → (pyStrip name0).data.any (fun c => c == '/') = false →
        (if parent = "" then pyStrip name0 else parent ++ "/" ++ pyStrip name0) ∈ reg →
        add_folder reg parent name0 = Except.error FolderError.duplicateFolder)
    ∧ (name0 ≠ "" → (pyStrip name0).data.any (fun c => c == '/') = false →
        (if parent = "" then pyStrip name0 else parent ++ "/" ++ pyStrip name0) ∉ reg →
        add_folder reg parent name0 = Except.ok
          (reg ++ [if parent = "" then pyStrip name0 else parent ++ "/" ++ pyStrip name0])) := by
  refine ⟨?_, ?_, ?_, ?_⟩
  · intro h; simp [add_folder, h]
  · intro h1 h2; simp [add_folder, h1, h2]
  · intro h1 h2 h3; simp [add_folder, h1, h2, h3]
  · intro h1 h2 h3; simp [add_folder, h1, h2, h3]

/-- C8 witness: the Sales scenario — the first creation at the root succeeds
and registers exactly "Sales"; the identical second call fails with
DuplicateFolder. -/
theorem add_folder_cases_witness :
    add_folder [""] "" "Sales" = Except.ok ["", "Sales"]
    ∧ add_folder ["", "Sales"] "" "Sales" = Except.error FolderError.duplicateFolder := by
  constructor
  · have h := (add_folder_cases [""] "" "Sales").2.2.2 (by decide) (by decide) (by decide)
    rw [h]; rfl
  · exact (add_folder_cases ["", "Sales"] "" "Sales").2.2.1 (by decide) (by decide) (by decide)

theorem mem_foldl_ins (l : List String) (r : List String) (q : String) :
    q ∈ l.foldl (fun r2 cur => if cur ∈ r2 then r2 else r2 ++ [cur]) r ↔ q ∈ r ∨ q ∈ l := by
  induction l generalizing r with
  | nil => simp
  | cons c t ih =>
    simp only [List.foldl_cons, ih]
    by_cases hc : c ∈ r
    · rw [if_pos hc]
      simp only [List.mem_cons]
      constructor
      · rintro (h | h)
        · exact Or.inl h
        · exact Or.inr (Or.inr h)
      · rintro (h | h | h)
        · exact Or.inl h
        · exact Or.inl (h ▸ hc)
        · exact Or.inr h
    · rw [if_neg hc]
      simp only [List.mem_append, List.mem_singleton, List.mem_cons]
      tauto

theorem mem_addPath (r : List String) (p q : String) :
    q ∈ addPath r p ↔ q ∈ r ∨ (p ≠ "" ∧ q ∈ pathChain p) := by
  unfold addPath
  by_cases hp : p = ""
  · rw [if_pos hp]; simp [hp]
  · rw [if_neg hp, mem_foldl_ins]; simp [hp]

theorem mem_foldl_addPath (ps : List String) (r : List String) (q : String) :
    q ∈ ps.foldl addPath r ↔ q ∈ r ∨ ∃ p ∈ ps, p ≠ "" ∧ q ∈ pathChain p := by
  induction ps generalizing r with
  | nil => simp
  | cons p t ih =>
    simp only [List.foldl_cons, ih, mem_addPath, List.exists_mem_cons_iff]
    tauto

theorem mem_sortedPaths (cs : List Contact) (p : String) :
    p ∈ sortedPaths cs ↔ p = "" ∨ ∃ c ∈ cs, c.folder_path = p := by
  unfold sortedPaths
  rw [(List.perm_insertionSort _ _).mem_iff, List.mem_dedup]
  simp

theorem pathChain_empty : pathChain "" = [""] := by decide

/-- C6 counterexample: `build_folder_tree` consumes only the current contact
list — there is no persistent registry input.  Creating the empty folder
"Sales" and then rebuilding (with the contacts unchanged) yields a registry
without "Sales". -/
theorem empty_folder_lost_on_rebuild :
    add_folder (build_folder_tree []) "" "Sales" = Except.ok ["", "Sales"]
    ∧ "Sales" ∉ build_folder_tree [] := ⟨rfl, by decide⟩

/-- C6 amended: a rebuild derives the registry of known folder paths solely
from the current records: a path is registered after `build_folder_tree cs`
iff it is the root or one of the cumulative segment paths of some record's
folder_path.  In particular an explicitly created folder holding no records is
not preserved by a rebuild. -/
theorem build_folder_tree_only_record_paths (cs : List Contact) (q : String) :
    q ∈ build_folder_tree cs ↔ q = "" ∨ ∃ c ∈ cs, q ∈ pathChain c.folder_path := by
  unfold build_folder_tree
  rw [mem_foldl_addPath]
  simp only [List.mem_singleton]
  constructor
  · rintro (h | ⟨p, hp, hne, hq⟩)
    · exact Or.inl h
    · rcases (mem_sortedPaths cs p).1 hp with h0 | ⟨c, hc, hcp⟩
      · exact absurd h0 hne
      · exact Or.inr ⟨c, hc, by rw [hcp]; exact hq⟩
  · rintro (h | ⟨c, hc, hq⟩)
    · exact Or.inl h
    · by_cases hcf : c.folder_path = ""
      · rw [hcf, pathChain_empty] at hq
        simp at hq
        exact Or.inl hq
      · exact Or.inr ⟨c.folder_path,
          (mem_sortedPaths cs c.folder_path).2 (Or.inr ⟨c, hc, rfl⟩), hcf, hq⟩

theorem loadRow_rowOf (c : Contact) : loadRow headerRow (rowOf c) = Except.ok (loadedOf c) := rfl

theorem loadRows_map (cs : List Contact) :
    loadRows headerRow (cs.map rowOf) = Except.ok (cs.map loadedOf) := by
  induction cs with
  | nil => rfl
  | cons c t ih => simp [loadRows, loadRow_rowOf, ih]

theorem rows_of_save_nonempty (cs : List Contact) :
    (cs.map rowOf).filter (fun r => !r.isEmpty) = cs.map rowOf := by
  rw [List.filter_eq_self]
  rintro r hr
  rcases List.mem_map.1 hr with ⟨c, _, rfl⟩
  rfl

theorem loaded_eq_full {c : Contact} (h : norm_path c.folder_path = c.folder_path) :
    loadedOf c = fullLoaded c := by
  unfold loadedOf fullLoaded
  rw [h]

/-- C5: saving and reloading reconstructs the sequence in order: every field
comes back intact and present except that the folder field is re-normalized
(python `str.strip`) by the loader.  Records whose folder_path carries no
surrounding whitespace — as the folder paths supplied by the folder tree on
`append` do — therefore round-trip field-for-field equal. -/
theorem save_load_round_trip (cs : List Contact) :
    load_contacts (save_contacts cs) = Except.ok (cs.map loadedOf)
    ∧ ((∀ c ∈ cs, norm_path c.folder_path = c.folder_path) →
        load_contacts (save_contacts cs) = Except.ok (cs.map fullLoaded)) := by
  have h1 : load_contacts (save_contacts cs) = Except.ok (cs.map loadedOf) := by
    show loadRows headerRow ((cs.map rowOf).filter (fun r => !r.isEmpty))
      = Except.ok (cs.map loadedOf)
    rw [rows_of_save_nonempty, loadRows_map]
  refine ⟨h1, fun hnorm => ?_⟩
  rw [h1]
  congr 1
  exact List.map_congr_left (fun c hc => loaded_eq_full (hnorm c hc))

/-- C5 witness: a concrete two-record store with normalized folder paths
round-trips field-for-field. -/
theorem save_load_round_trip_witness :
    load_contacts (save_contacts [mkC "A" "Bob", mkC "A/B" "Al"])
      = Except.ok [fullLoaded (mkC "A" "Bob"), fullLoaded (mkC "A/B" "Al")] := by
  have h := (save_load_round_trip [mkC "A" "Bob", mkC "A/B" "Al"]).2 (by decide)
  simpa using h

/-- C9 counterexample: with the standard header, a data row that omits the
required `name` field (and every service id) loads WITHOUT error — DictReader
fills the missing cells with None — where the claim requires a MalformedRow
failure. -/
theorem load_missing_fields_no_error :
    load_contacts [headerRow, ["OnlyFolder"]]
      = Except.ok [⟨"OnlyFolder", none, none, none, none, none⟩] := rfl

theorem loadRow_error_iff (header row : List String) :
    (∃ e, loadRow header row = Except.error e) ↔
      (lastIdxOf "folder" header = none
       ∨ (∃ i, lastIdxOf "folder" header = some i ∧ row[i]? = none)
       ∨ lastIdxOf "name" header = none) := by
  unfold loadRow pyDictVal
  rcases hf : lastIdxOf "folder" header with _ | i
  · simp [hf]
  · rcases hr : row[i]? with _ | v
    · simp [hf, hr]
      exact Or.inl (List.getElem?_eq_none_iff.1 hr)
    · rcases hn : lastIdxOf "name" header with _ | i2
      · simp [hf, hr, hn]
      · simp [hf, hr, hn]
        exact (List.getElem?_eq_some.1 hr).1

theorem loadRows_error_iff (header : List String) (rows : List (List String)) :
    (∃ e, loadRows header rows = Except.error e) ↔
      ∃ row ∈ rows, ∃ e, loadRow header row = Except.error e := by
  induction rows with
  | nil => simp [loadRows]
  | cons row rest ih =>
    simp only [loadRows, List.exists_mem_cons_iff]
    rcases h : loadRow header row with e | c
    · simp [h]
    · rcases h2 : loadRows header rest with e2 | cs2
      · simp only [h2]
        constructor
        · intro _; exact Or.inr (ih.1 ⟨e2, h2⟩)
        · intro _; exact ⟨e2, rfl⟩
      · simp only [h2]
        constructor
        · rintro ⟨e, he⟩; cases he
        · rintro (⟨e, he⟩ | hrest)
          · cases he
          · rcases ih.2 hrest with ⟨e, he⟩
            rw [he] at h2; cases h2

/-- C9 amended: loading fails exactly when some non-blank data row exists and
either the header lacks a "folder" or "name" column (KeyError on the row dict),
or the row is too short to supply a value for the folder column (None reaches
the strip in `_norm_path`).  A field missing from a data row under the standard
header otherwise does not fail: DictReader fills it with None / the `.get`
default. -/
theorem load_error_iff (header : List String) (rows : List (List String)) :
    (∃ e, load_contacts (header :: rows) = Except.error e) ↔
      ∃ row ∈ rows, row ≠ []
        ∧ (lastIdxOf "folder" header = none
           ∨ (∃ i, lastIdxOf "folder" header = some i ∧ row[i]? = none)
           ∨ lastIdxOf "name" header = none) := by
  have h0 : load_contacts (header :: rows)
      = loadRows header (rows.filter (fun r => !r.isEmpty)) := rfl
  rw [h0, loadRows_error_iff]
  constructor
  · rintro ⟨row, hmem, he⟩
    rw [List.mem_filter] at hmem
    refine ⟨row, hmem.1, ?_, (loadRow_error_iff _ _).1 he⟩
    intro hnil
    rw [hnil] at hmem
    simp at hmem
  · rintro ⟨row, hmem, hne, hcond⟩
    refine ⟨row, List.mem_filter.2 ⟨hmem, ?_⟩, (loadRow_error_iff _ _).2 hcond⟩
    cases row with
    | nil => exact absurd rfl hne
    | cons a t => rfl

theorem idxsFrom_succ (f : String) (cs : List Contact) (n : Nat) :
    idxsFrom f (n + 1) cs = (idxsFrom f n cs).map (fun m => m + 1) := by
  induction cs generalizing n with
  | nil => rfl
  | cons c t ih =>
    by_cases hc : (c.folder_path == f) = true
    · simp only [idxsFrom, if_pos hc, List.map_cons, ih]
    · simp only [idxsFrom, if_neg hc, ih]

theorem folderIdxs_cons (c : Contact) (cs : List Contact) (f : String) :
    folderIdxs (c :: cs) f
      = if c.folder_path == f then 0 :: (folderIdxs cs f).map (fun m => m + 1)
        else (folderIdxs cs f).map (fun m => m + 1) := by
  by_cases hc : (c.folder_path == f) = true
  · simp only [folderIdxs, idxsFrom, if_pos hc]
    rw [show (1 : Nat) = 0 + 1 from rfl, idxsFrom_succ]
  · simp only [folderIdxs, idxsFrom, if_neg hc]
    rw [show (1 : Nat) = 0 + 1 from rfl, idxsFrom_succ]

theorem mem_folderIdxs {cs : List Contact} {f : String} {k : Nat} :
    k ∈ folderIdxs cs f ↔ ∃ c, cs[k]? = some c ∧ c.folder_path = f := by
  induction cs generalizing k with
  | nil => simp [folderIdxs, idxsFrom]
  | cons c t ih =>
    rw [folderIdxs_cons]
    by_cases hc : (c.folder_path == f) = true
    · rw [if_pos hc]
      cases k with
      | zero =>
        simp only [List.getElem?_cons_zero]
        constructor
        · intro _; exact ⟨c, rfl, by simpa [beq_iff_eq] using hc⟩
        · intro _; exact List.mem_cons_self _ _
      | succ k2 =>
        simp only [List.mem_cons, List.mem_map, List.getElem?_cons_succ]
        constructor
        · rintro (h | ⟨m, hm, hmk⟩)
          · omega
          · have : m = k2 := by omega
            subst this
            exact ih.1 hm
        · intro h
          exact Or.inr ⟨k2, ih.2 h, rfl⟩
    · rw [if_neg hc]
      cases k with
      | zero =>
        simp only [List.mem_map, List.getElem?_cons_zero]
        constructor
        · rintro ⟨m, _, hmk⟩; omega
        · rintro ⟨c2, hc2, hcf⟩
          have : c2 = c := Option.some.inj hc2.symm
          subst this
          exact absurd (by simpa [beq_iff_eq] using hcf) (by simpa [beq_iff_eq] using hc)
      | succ k2 =>
        simp only [List.mem_map, List.getElem?_cons_succ]
        constructor
        · rintro ⟨m, hm, hmk⟩
          have : m = k2 := by omega
          subst this
          exact ih.1 hm
        · intro h
          exact ⟨k2, ih.2 h, rfl⟩

theorem filterMap_shift (c : Contact) (t : List Contact) (l : List Nat) :
    (l.map (fun m => m + 1)).filterMap (fun k => (c :: t)[k]?)
      = l.filterMap (fun k => t[k]?) := by
  rw [List.filterMap_map]
  congr 1
  funext k
  simp [Function.comp]

theorem filterMap_folderIdxs (cs : List Contact) (f : String) :
    (folderIdxs cs f).filterMap (fun k => cs[k]?)
      = cs.filter (fun c => c.folder_path == f) := by
  induction cs with
  | nil => rfl
  | cons c t ih =>
    rw [folderIdxs_cons]
    by_cases hc : (c.folder_path == f) = true
    · rw [if_pos hc]
      have h0 : ((0 :: (folderIdxs t f).map (fun m => m + 1)).filterMap
          (fun k => (c :: t)[k]?))
          = c :: ((folderIdxs t f).map (fun m => m + 1)).filterMap (fun k => (c :: t)[k]?) := by
        rw [List.filterMap_cons, List.getElem?_cons_zero]
      rw [h0, filterMap_shift, ih, List.filter_cons, if_pos hc]
    · rw [if_neg hc]
      rw [filterMap_shift, ih, List.filter_cons, if_neg hc]

theorem length_folderIdxs (cs : List Contact) (f : String) :
    (folderIdxs cs f).length = (cs.filter (fun c => c.folder_path == f)).length := by
  induction cs with
  | nil => rfl
  | cons c t ih =>
    rw [folderIdxs_cons]
    by_cases hc : (c.folder_path == f) = true
    · simp [hc, List.filter_cons, ih]
    · simp [hc, List.filter_cons, ih]

theorem getElem?_filterMap_of_all_some (cs : List Contact) :
    ∀ (idxs : List Nat) (p k : Nat), idxs[p]? = some k →
      (∀ m ∈ idxs, ∃ c, cs[m]? = some c) →
      (idxs.filterMap (fun m => cs[m]?))[p]? = cs[k]? := by
  intro idxs
  induction idxs with
  | nil => intro p k hp _; simp at hp
  | cons m rest ih =>
    intro p k hp hall
    obtain ⟨c0, hc0⟩ := hall m (List.mem_cons_self m rest)
    have hcons : (m :: rest).filterMap (fun m2 => cs[m2]?)
        = c0 :: rest.filterMap (fun m2 => cs[m2]?) := by
      rw [List.filterMap_cons, hc0]
    cases p with
    | zero =>
      have : m = k := by simpa using hp
      subst this
      rw [hcons]
      simpa using hc0.symm
    | succ p2 =>
      rw [hcons]
      simp only [List.getElem?_cons_succ] at hp ⊢
      exact ih p2 k hp (fun m2 hm2 => hall m2 (List.mem_cons_of_mem m hm2))

theorem writeBack_length : ∀ (pairs : List (Nat × Contact)) (cs : List Contact),
    (writeBack cs pairs).length = cs.length := by
  intro pairs
  induction pairs with
  | nil => intro cs; rfl
  | cons q rest ih =>
    intro cs
    rcases q with ⟨i, v⟩
    rw [show writeBack cs ((i, v) :: rest) = writeBack (cs.set i v) rest from rfl,
      ih, List.length_set]

theorem writeBack_shift (a : Contact) :
    ∀ (pairs : List (Nat × Contact)) (cs : List Contact),
      writeBack (a :: cs) (pairs.map (fun q => (q.1 + 1, q.2))) = a :: writeBack cs pairs := by
  intro pairs
  induction pairs with
  | nil => intro cs; rfl
  | cons q rest ih =>
    intro cs
    rcases q with ⟨qi, qv⟩
    simp only [List.map_cons]
    rw [show writeBack (a :: cs) ((qi + 1, qv) :: rest.map (fun q => (q.1 + 1, q.2)))
        = writeBack ((a :: cs).set (qi + 1) qv) (rest.map (fun q => (q.1 + 1, q.2))) from rfl]
    rw [List.set_cons_succ]
    exact ih (cs.set qi qv)

theorem writeBack_frame : ∀ (pairs : List (Nat × Contact)) (cs : List Contact) (k : Nat),
    (∀ p ∈ pairs, p.1 ≠ k) → (writeBack cs pairs)[k]? = cs[k]? := by
  intro pairs
  induction pairs with
  | nil => intro cs k _; rfl
  | cons q rest ih =>
    intro cs k h
    rcases q with ⟨i, v⟩
    rw [show writeBack cs ((i, v) :: rest) = writeBack (cs.set i v) rest from rfl]
    rw [ih (cs.set i v) k (fun p hp => h p (List.mem_cons_of_mem _ hp))]
    exact List.getElem?_set_ne (h (i, v) (List.mem_cons_self _ _))

theorem writeBack_cases : ∀ (pairs : List (Nat × Contact)) (cs : List Contact) (k : Nat),
    (writeBack cs pairs)[k]? = cs[k]?
    ∨ ∃ v, (k, v) ∈ pairs ∧ (writeBack cs pairs)[k]? = some v := by
  intro pairs
  induction pairs with
  | nil => intro cs k; exact Or.inl rfl
  | cons q rest ih =>
    intro cs k
    rcases q with ⟨i, v⟩
    rw [show writeBack cs ((i, v) :: rest) = writeBack (cs.set i v) rest from rfl]
    rcases ih (cs.set i v) k with h | ⟨w, hw, hr⟩
    · by_cases hik : i = k
      · subst hik
        rcases hcs : cs[i]? with _ | c
        · left; rw [h, List.getElem?_set_self', hcs]; rfl
        · right
          exact ⟨v, List.mem_cons_self _ _, by rw [h, List.getElem?_set_self', hcs]; rfl⟩
      · left; rw [h, List.getElem?_set_ne hik]
    · right; exact ⟨w, List.mem_cons_of_mem _ hw, hr⟩

theorem zip_map_fst_succ (vs : List Contact) :
    ∀ (idxs : List Nat),
      (idxs.map (fun m => m + 1)).zip vs = (idxs.zip vs).map (fun q => (q.1 + 1, q.2)) := by
  induction vs with
  | nil => intro idxs; simp
  | cons v u ih =>
    intro idxs
    cases idxs with
    | nil => rfl
    | cons m t => simp [ih]

theorem pair_mem_zip {a : Nat} {b : Contact} :
    ∀ {l1 : List Nat} {l2 : List Contact}, (a, b) ∈ l1.zip l2 → a ∈ l1 ∧ b ∈ l2 := by
  intro l1
  induction l1 with
  | nil => intro l2 h; simp at h
  | cons x t ih =>
    intro l2 h
    cases l2 with
    | nil => simp at h
    | cons y u =>
      rcases List.mem_cons.1 h with h1 | h2
      · rw [Prod.mk.injEq] at h1
        obtain ⟨rfl, rfl⟩ := h1
        exact ⟨List.mem_cons_self _ _, List.mem_cons_self _ _⟩
      · rcases ih h2 with ⟨ha, hb⟩
        exact ⟨List.mem_cons_of_mem _ ha, List.mem_cons_of_mem _ hb⟩

theorem filter_writeBack (f : String) :
    ∀ (cs : List Contact) (vals : List Contact),
      vals.length = (folderIdxs cs f).length →
      (∀ v ∈ vals, (v.folder_path == f) = true) →
      (writeBack cs ((folderIdxs cs f).zip vals)).filter (fun c => c.folder_path == f) = vals := by
  intro cs
  induction cs with
  | nil =>
    intro vals hlen _
    have hnil : vals = [] := List.eq_nil_of_length_eq_zero (by simpa [folderIdxs, idxsFrom] using hlen)
    subst hnil; rfl
  | cons c t ih =>
    intro vals hlen hmem
    rw [folderIdxs_cons] at hlen ⊢
    by_cases hc : (c.folder_path == f) = true
    · rw [if_pos hc] at hlen ⊢
      rcases vals with _ | ⟨v, vs⟩
      · simp at hlen
      · rw [List.zip_cons_cons, zip_map_fst_succ]
        rw [show writeBack (c :: t)
              ((0, v) :: ((folderIdxs t f).zip vs).map (fun q => (q.1 + 1, q.2)))
            = writeBack (v :: t) (((folderIdxs t f).zip vs).map (fun q => (q.1 + 1, q.2)))
          from rfl]
        rw [writeBack_shift]
        have hv := hmem v (List.mem_cons_self v vs)
        rw [List.filter_cons, if_pos hv]
        have hlen2 : vs.length = (folderIdxs t f).length := by simpa using hlen
        rw [ih vs hlen2 (fun w hw => hmem w (List.mem_cons_of_mem v hw))]
    · rw [if_neg hc] at hlen ⊢
      rw [zip_map_fst_succ, writeBack_shift]
      rw [List.filter_cons, if_neg hc]
      have hlen2 : vals.length = (folderIdxs t f).length := by simpa using hlen
      rw [ih vals hlen2 hmem]

theorem reorder_eq (cs : List Contact) (i j : Nat) (hi : i < cs.length) (hj : j < cs.length)
    (hsh : (cs[j]).folder_path = (cs[i]).folder_path) :
    reorderWithinFolder cs i j
      = writeBack cs ((folderIdxs cs (cs[i]).folder_path).zip
          (insAt (posOf j (folderIdxs cs (cs[i]).folder_path)) cs[i]
            ((cs.filter (fun c => c.folder_path == (cs[i]).folder_path)).eraseIdx
              (posOf i (folderIdxs cs (cs[i]).folder_path))))) := by
  have hisome : cs[i]? = some cs[i] := List.getElem?_eq_getElem hi
  have himem : i ∈ folderIdxs cs (cs[i]).folder_path :=
    mem_folderIdxs.2 ⟨cs[i], hisome, rfl⟩
  have hidx : (folderIdxs cs (cs[i]).folder_path)[posOf i (folderIdxs cs (cs[i]).folder_path)]?
      = some i := getElem?_posOf himem
  have hall : ∀ m ∈ folderIdxs cs (cs[i]).folder_path, ∃ c, cs[m]? = some c := by
    intro m hm
    rcases mem_folderIdxs.1 hm with ⟨c, hc, _⟩
    exact ⟨c, hc⟩
  have hfc : (((folderIdxs cs (cs[i]).folder_path).filterMap
        (fun k => cs[k]?)))[posOf i (folderIdxs cs (cs[i]).folder_path)]? = some cs[i] := by
    rw [getElem?_filterMap_of_all_some cs _ _ i hidx hall, hisome]
  unfold reorderWithinFolder
  split
  · next heq => rw [hisome] at heq; cases heq
  · next src heq =>
    rw [hisome] at heq
    obtain rfl : cs[i] = src := Option.some.inj heq
    simp only [hfc]
    rw [filterMap_folderIdxs]

theorem reorder_vals_in_folder (cs : List Contact) (i j : Nat) (hi : i < cs.length) :
    ∀ v ∈ insAt (posOf j (folderIdxs cs (cs[i]).folder_path)) cs[i]
        ((cs.filter (fun c => c.folder_path == (cs[i]).folder_path)).eraseIdx
          (posOf i (folderIdxs cs (cs[i]).folder_path))),
      (v.folder_path == (cs[i]).folder_path) = true := by
  intro v hv
  rcases mem_insAt.1 hv with h | h
  · subst h; simp
  · have hvf : v ∈ cs.filter (fun c => c.folder_path == (cs[i]).folder_path) :=
      mem_of_mem_erase_at h
    exact (List.mem_filter.1 hvf).2

theorem reorder_vals_length (cs : List Contact) (i j : Nat)
    (hi : i < cs.length) (hj : j < cs.length)
    (hsh : (cs[j]).folder_path = (cs[i]).folder_path) :
    (insAt (posOf j (folderIdxs cs (cs[i]).folder_path)) cs[i]
        ((cs.filter (fun c => c.folder_path == (cs[i]).folder_path)).eraseIdx
          (posOf i (folderIdxs cs (cs[i]).folder_path)))).length
      = (folderIdxs cs (cs[i]).folder_path).length := by
  have himem : i ∈ folderIdxs cs (cs[i]).folder_path :=
    mem_folderIdxs.2 ⟨cs[i], List.getElem?_eq_getElem hi, rfl⟩
  have hsp : posOf i (folderIdxs cs (cs[i]).folder_path)
      < (cs.filter (fun c => c.folder_path == (cs[i]).folder_path)).length := by
    rw [← length_folderIdxs]
    exact posOf_lt_length himem
  rw [insAt_length, List.length_eraseIdx, if_pos hsp, length_folderIdxs]
  omega

/-- C3: for valid indices in one shared folder, `reorder_within_folder(i, j)`
removes the source from the folder's local ordering (the filtered sublist) and
reinserts it at the target's local position, writing the new local ordering
back into exactly the global slots of that folder: the folder-filtered view of
the result is the locally reordered list, every slot outside the folder's
index set is untouched, and the length is unchanged. -/
theorem reorder_within_folder_spec (cs : List Contact) (i j : Nat)
    (hi : i < cs.length) (hj : j < cs.length)
    (hsh : (cs[j]).folder_path = (cs[i]).folder_path) :
    (reorderWithinFolder cs i j).filter (fun c => c.folder_path == (cs[i]).folder_path)
      = insAt (posOf j (folderIdxs cs (cs[i]).folder_path)) cs[i]
          ((cs.filter (fun c => c.folder_path == (cs[i]).folder_path)).eraseIdx
            (posOf i (folderIdxs cs (cs[i]).folder_path)))
    ∧ (∀ k, k ∉ folderIdxs cs (cs[i]).folder_path →
        (reorderWithinFolder cs i j)[k]? = cs[k]?)
    ∧ (reorderWithinFolder cs i j).length = cs.length := by
  rw [reorder_eq cs i j hi hj hsh]
  refine ⟨filter_writeBack _ cs _ (reorder_vals_length cs i j hi hj hsh)
      (reorder_vals_in_folder cs i j hi), ?_, writeBack_length _ _⟩
  intro k hk
  apply writeBack_frame
  intro p hp hpk
  exact hk (hpk ▸ (pair_mem_zip hp).1)

/-- C3 witness: the spec's concrete scenario — on the store
[("A","Bob"), ("A","Al"), ("B","Cy")], reorder_within_folder(0, 1) yields
[("A","Al"), ("A","Bob"), ("B","Cy")]; the theorem's length conclusion is
instantiated there. -/
theorem reorder_within_folder_spec_witness :
    reorderWithinFolder [mkC "A" "Bob", mkC "A" "Al", mkC "B" "Cy"] 0 1
      = [mkC "A" "Al", mkC "A" "Bob", mkC "B" "Cy"]
    ∧ (reorderWithinFolder [mkC "A" "Bob", mkC "A" "Al", mkC "B" "Cy"] 0 1).length = 3 := by
  have h := reorder_within_folder_spec [mkC "A" "Bob", mkC "A" "Al", mkC "B" "Cy"] 0 1
    (by decide) (by decide) (by decide)
  refine ⟨rfl, ?_⟩
  rw [h.2.2]
  rfl

/-- C4: for valid indices in one shared folder, `reorder_within_folder(i, j)`
changes no slot's folder_path (position by position), and every record whose
folder is not the shared one keeps its exact global index. -/
theorem reorder_within_folder_frame (cs : List Contact) (i j : Nat)
    (hi : i < cs.length) (hj : j < cs.length)
    (hsh : (cs[j]).folder_path = (cs[i]).folder_path) :
    (∀ (k : Nat), ((reorderWithinFolder cs i j)[k]?).map (fun c => c.folder_path)
        = (cs[k]?).map (fun c => c.folder_path))
    ∧ (∀ (k : Nat) (c : Contact), cs[k]? = some c → c.folder_path ≠ (cs[i]).folder_path →
        (reorderWithinFolder cs i j)[k]? = some c) := by
  rw [reorder_eq cs i j hi hj hsh]
  constructor
  · intro k
    rcases writeBack_cases
        ((folderIdxs cs (cs[i]).folder_path).zip
          (insAt (posOf j (folderIdxs cs (cs[i]).folder_path)) cs[i]
            ((cs.filter (fun c => c.folder_path == (cs[i]).folder_path)).eraseIdx
              (posOf i (folderIdxs cs (cs[i]).folder_path))))) cs k with h | ⟨v, hv, hr⟩
    · rw [h]
    · have hk : k ∈ folderIdxs cs (cs[i]).folder_path := (pair_mem_zip hv).1
      have hvmem := (pair_mem_zip hv).2
      rcases mem_folderIdxs.1 hk with ⟨c, hc, hcf⟩
      have hvf : (v.folder_path == (cs[i]).folder_path) = true :=
        reorder_vals_in_folder cs i j hi v hvmem
      rw [hr, hc]
      simp only [Option.map_some']
      rw [hcf, beq_iff_eq.1 hvf]
  · intro k c hc hne
    have hk : k ∉ folderIdxs cs (cs[i]).folder_path := by
      intro hmem
      rcases mem_folderIdxs.1 hmem with ⟨c2, hc2, hc2f⟩
      rw [hc] at hc2
      obtain rfl : c = c2 := Option.some.inj hc2
      exact hne hc2f
    rw [writeBack_frame _ cs k (fun p hp hpk => hk (hpk ▸ (pair_mem_zip hp).1)), hc]

/-- C4 witness: on [("A","a"), ("B","b"), ("A","c")], reorder_within_folder(0, 2)
keeps the "B" record at global index 1 and leaves slot 0 in folder "A". -/
theorem reorder_within_folder_frame_witness :
    (reorderWithinFolder [mkC "A" "a", mkC "B" "b", mkC "A" "c"] 0 2)[1]? = some (mkC "B" "b")
    ∧ ((reorderWithinFolder [mkC "A" "a", mkC "B" "b", mkC "A" "c"] 0 2)[0]?).map
        (fun c => c.folder_path) = some "A" := by
  have h := reorder_within_folder_frame [mkC "A" "a", mkC "B" "b", mkC "A" "c"] 0 2
    (by decide) (by decide) (by decide)
  constructor
  · exact h.2 1 (mkC "B" "b") (by decide) (by decide)
  · rw [h.1 0]
    decide
